import Mathlib

/-!
Verification of the crossterm-input escape-sequence decoder and event
distribution layer against its natural-language specification.

The decoder is a shallow embedding of `parse_event` and its helpers from
`src/sys/unix.rs` (the buffer-plus-hint decoder that the specification's
`decode(buffer, more_input_pending)` contract describes).  Bytes are
modelled as `Nat` values below 256, `u16`/`u8` values as `Nat` with the
range checks the Rust parsing functions perform, and a Rust `panic`
(debug-mode arithmetic overflow) as the explicit result
`ParseResult.panicked`.
-/

set_option maxRecDepth 4000

/-! ## Event model (src/lib.rs) -/

/-- Mouse buttons, from the `MouseButton` enum in src/lib.rs. -/
inductive MouseButton
  | Left
  | Right
  | Middle
  | WheelUp
  | WheelDown
  deriving DecidableEq, Repr

/-- Mouse events, from the `MouseEvent` enum in src/lib.rs.  Coordinates are
`u16` in the source, modelled as `Nat`. -/
inductive MouseEvent
  | Press (button : MouseButton) (x y : Nat)
  | Release (x y : Nat)
  | Hold (x y : Nat)
  | Unknown
  deriving DecidableEq, Repr

/-- Key events, from the `KeyEvent` enum in src/lib.rs. -/
inductive KeyEvent
  | Backspace
  | Enter
  | Left
  | Right
  | Up
  | Down
  | Home
  | End
  | PageUp
  | PageDown
  | Tab
  | BackTab
  | Delete
  | Insert
  | F (n : Nat)
  | Char (c : Char)
  | Alt (c : Char)
  | Ctrl (c : Char)
  | Null
  | Esc
  | CtrlUp
  | CtrlDown
  | CtrlRight
  | CtrlLeft
  | ShiftUp
  | ShiftDown
  | ShiftRight
  | ShiftLeft
  deriving DecidableEq, Repr

/-- Input events, from the `InputEvent` enum in src/lib.rs. -/
inductive InputEvent
  | Keyboard (k : KeyEvent)
  | Mouse (m : MouseEvent)
  | Unsupported (bytes : List Nat)
  | Unknown
  deriving DecidableEq, Repr

/-- Internal events, from the `InternalEvent` enum in src/lib.rs; the
`CursorPosition` variant never reaches the public stream. -/
inductive InternalEvent
  | Input (e : InputEvent)
  | CursorPosition (x y : Nat)
  deriving DecidableEq, Repr

/-- Result of one `parse_event` call on the accumulated buffer.
`incomplete` is Rust's `Ok(None)`, `invalid` is `Err(_)` (discard buffer),
`event e` is `Ok(Some(e))`, and `panicked` marks a debug-mode arithmetic
overflow (`u16`/`i8` subtraction below the type's minimum). -/
inductive ParseResult
  | incomplete
  | invalid
  | event (e : InternalEvent)
  | panicked
  deriving DecidableEq, Repr

/-- The coordinates carried by a mouse event, when it carries any. -/
def mouseCoords : MouseEvent → Option (Nat × Nat)
  | .Press _ x y => some (x, y)
  | .Release x y => some (x, y)
  | .Hold x y => some (x, y)
  | .Unknown => none

/-! ## Byte-string helpers

These model the Rust standard-library pieces the decoder relies on:
`std::str::from_utf8` (strict UTF-8 validation), `str::split(';')` and
`u16::from_str` / `u8::from_str`.  A decoded `&str` is modelled as the
list of its unicode scalar values. -/

/-- A UTF-8 continuation byte, `10xxxxxx`. -/
def isCont (c : Nat) : Bool := decide (0x80 ≤ c ∧ c < 0xC0)

/-- Decode the continuation of a two-byte sequence with lead byte `b`
(`0xC0..=0xDF`): the scalar value and the remaining bytes, rejecting
overlong forms (value below `0x80`). -/
def utf8Decode2 (b : Nat) : List Nat → Option (Nat × List Nat)
  | c1 :: r =>
    if isCont c1 then
      let cp := (b - 0xC0) * 0x40 + (c1 - 0x80)
      if 0x80 ≤ cp then some (cp, r) else none
    else none
  | [] => none

/-- Decode the continuation of a three-byte sequence with lead byte `b`
(`0xE0..=0xEF`), rejecting overlong forms and surrogates. -/
def utf8Decode3 (b : Nat) : List Nat → Option (Nat × List Nat)
  | c1 :: c2 :: r =>
    if isCont c1 && isCont c2 then
      let cp := (b - 0xE0) * 0x1000 + (c1 - 0x80) * 0x40 + (c2 - 0x80)
      if 0x800 ≤ cp ∧ ¬(0xD800 ≤ cp ∧ cp ≤ 0xDFFF) then some (cp, r) else none
    else none
  | _ => none

/-- Decode the continuation of a four-byte sequence with lead byte `b`
(`0xF0..=0xF7`), rejecting overlong forms and values past `0x10FFFF`. -/
def utf8Decode4 (b : Nat) : List Nat → Option (Nat × List Nat)
  | c1 :: c2 :: c3 :: r =>
    if isCont c1 && isCont c2 && isCont c3 then
      let cp := (b - 0xF0) * 0x40000 + (c1 - 0x80) * 0x1000 +
        (c2 - 0x80) * 0x40 + (c3 - 0x80)
      if 0x10000 ≤ cp ∧ cp ≤ 0x10FFFF then some (cp, r) else none
    else none
  | _ => none

/-- Worker for `utf8DecodeList`; the fuel only bounds the recursion depth
and never runs out when it starts at the byte count, since every decoded
scalar consumes at least one byte. -/
def utf8DecodeAux : Nat → List Nat → Option (List Nat)
  | _, [] => some []
  | 0, _ :: _ => none
  | fuel + 1, b :: rest =>
    if b < 0x80 then (utf8DecodeAux fuel rest).map (b :: ·)
    else if b < 0xC0 then none
    else if b < 0xE0 then
      match utf8Decode2 b rest with
      | some p => (utf8DecodeAux fuel p.2).map (p.1 :: ·)
      | none => none
    else if b < 0xF0 then
      match utf8Decode3 b rest with
      | some p => (utf8DecodeAux fuel p.2).map (p.1 :: ·)
      | none => none
    else if b < 0xF8 then
      match utf8Decode4 b rest with
      | some p => (utf8DecodeAux fuel p.2).map (p.1 :: ·)
      | none => none
    else none

/-- Strict UTF-8 decoding of a byte list into the list of unicode scalar
values, exactly as `std::str::from_utf8` (followed by `chars()`) accepts:
continuation bytes are `10xxxxxx`, overlong forms, surrogates and values
above `0x10FFFF` are rejected. -/
def utf8DecodeList (l : List Nat) : Option (List Nat) := utf8DecodeAux l.length l

/-- `str::split(';')` on a decoded string (list of scalar values), with
Rust's semantics: always at least one segment, adjacent separators and a
trailing separator produce empty segments. -/
def splitSemi : List Nat → List (List Nat)
  | [] => [[]]
  | c :: rest =>
    if c = 59 then [] :: splitSemi rest
    else
      let tailSplit := splitSemi rest
      (c :: tailSplit.headD []) :: tailSplit.tail

/-- An ASCII decimal digit byte/scalar. -/
def isDigitByte (b : Nat) : Bool := decide (48 ≤ b ∧ b ≤ 57)

/-- Value of a string of decimal digit scalars (most significant first),
the fold that `from_str` performs. -/
def digitsVal (l : List Nat) : Nat := l.foldl (fun acc b => acc * 10 + (b - 48)) 0

/-- Rust `FromStr` for an unsigned integer type with exclusive upper bound
`bound` (`u8` ↦ 256, `u16` ↦ 65536): an optional leading plus sign, then
one or more decimal digits, failing on any other character and on
overflow past the type's maximum. -/
def parseUNat (bound : Nat) (s : List Nat) : Option Nat :=
  let digits := match s with
    | b :: rest => if b = 43 then rest else b :: rest
    | [] => []
  if digits = [] then none
  else if digits.all isDigitByte then
    if digitsVal digits < bound then some (digitsVal digits) else none
  else none

/-- `next_parsed::<T>` from src/sys/unix.rs applied to the `i`-th element
of the split iterator: `None` when the iterator is exhausted or the
segment does not parse (both map to the same parse error). -/
def next_parsed (bound : Nat) (parts : List (List Nat)) (i : Nat) : Option Nat :=
  match parts.get? i with
  | none => none
  | some seg => parseUNat bound seg

/-- Rust slice `buffer[a..b]` (valid at every call site below, where the
callers' routing guarantees `a ≤ b ≤ buffer.len()`). -/
def sliceRust (l : List Nat) (a b : Nat) : List Nat := (l.take b).drop a

/-- `buffer.last().unwrap()` — every caller below passes a non-empty
buffer. -/
def lastByte (l : List Nat) : Nat := l.getLastD 0

/-! ## The escape-sequence decoder (src/sys/unix.rs)

Rust `match`es on byte values are written as if-chains over the same
disjoint ranges.  Checked (debug-mode) arithmetic is made explicit: a
`u16` subtraction of 1 from 0, and an `i8` subtraction overflowing below
-128, produce `ParseResult.panicked`. -/

/-- `parse_csi_cursor_position`: `ESC [ Cy ; Cx R`, `Cy`/`Cx` one-based
`u16` row/column.  The source computes `next_parsed::<u16>(..)? - 1` for
each, so a parsed 0 underflows. -/
def parse_csi_cursor_position (buffer : List Nat) : ParseResult :=
  match utf8DecodeList (sliceRust buffer 2 (buffer.length - 1)) with
  | none => .invalid
  | some s =>
    let parts := splitSemi s
    match next_parsed 65536 parts 0 with
    | none => .invalid
    | some y0 =>
      if y0 = 0 then .panicked
      else
        match next_parsed 65536 parts 1 with
        | none => .invalid
        | some x0 =>
          if x0 = 0 then .panicked
          else .event (.CursorPosition (x0 - 1) (y0 - 1))

/-- `parse_csi_modifier_key_code`: dispatch on the last two raw bytes. -/
def parse_csi_modifier_key_code (buffer : List Nat) : ParseResult :=
  let modifier := buffer.getD (buffer.length - 2) 0
  let key := buffer.getD (buffer.length - 1) 0
  .event (.Input (
    if modifier = 53 ∧ key = 65 then .Keyboard .CtrlUp
    else if modifier = 53 ∧ key = 66 then .Keyboard .CtrlDown
    else if modifier = 53 ∧ key = 67 then .Keyboard .CtrlRight
    else if modifier = 53 ∧ key = 68 then .Keyboard .CtrlLeft
    else if modifier = 50 ∧ key = 65 then .Keyboard .ShiftUp
    else if modifier = 50 ∧ key = 66 then .Keyboard .ShiftDown
    else if modifier = 50 ∧ key = 67 then .Keyboard .ShiftRight
    else if modifier = 50 ∧ key = 68 then .Keyboard .ShiftLeft
    else .Unknown))

/-- `parse_csi_special_key_code`: `ESC [ v (; w)* ~`; the values parse as
`u8`; a successfully parsed second value short-circuits to `Unknown`. -/
def parse_csi_special_key_code (buffer : List Nat) : ParseResult :=
  match utf8DecodeList (sliceRust buffer 2 (buffer.length - 1)) with
  | none => .invalid
  | some s =>
    let parts := splitSemi s
    match next_parsed 256 parts 0 with
    | none => .invalid
    | some first =>
      if (next_parsed 256 parts 1).isSome then .event (.Input .Unknown)
      else
        .event (.Input (
          if first = 1 ∨ first = 7 then .Keyboard .Home
          else if first = 2 then .Keyboard .Insert
          else if first = 3 then .Keyboard .Delete
          else if first = 4 ∨ first = 8 then .Keyboard .End
          else if first = 5 then .Keyboard .PageUp
          else if first = 6 then .Keyboard .PageDown
          else if 11 ≤ first ∧ first ≤ 15 then .Keyboard (.F (first - 10))
          else if 17 ≤ first ∧ first ≤ 21 then .Keyboard (.F (first - 11))
          else if 23 ≤ first ∧ first ≤ 24 then .Keyboard (.F (first - 12))
          else .Unknown))

/-- `parse_csi_rxvt_mouse`: `ESC [ Cb ; Cx ; Cy ; M`, `u16` fields, the
coordinates decremented right after parsing (underflow at 0). -/
def parse_csi_rxvt_mouse (buffer : List Nat) : ParseResult :=
  match utf8DecodeList (sliceRust buffer 2 (buffer.length - 1)) with
  | none => .invalid
  | some s =>
    let parts := splitSemi s
    match next_parsed 65536 parts 0 with
    | none => .invalid
    | some cb =>
      match next_parsed 65536 parts 1 with
      | none => .invalid
      | some cx0 =>
        if cx0 = 0 then .panicked
        else
          match next_parsed 65536 parts 2 with
          | none => .invalid
          | some cy0 =>
            if cy0 = 0 then .panicked
            else
              let cx := cx0 - 1
              let cy := cy0 - 1
              .event (.Input (.Mouse (
                if cb = 32 then .Press .Left cx cy
                else if cb = 33 then .Press .Middle cx cy
                else if cb = 34 then .Press .Right cx cy
                else if cb = 35 then .Release cx cy
                else if cb = 64 then .Hold cx cy
                else if cb = 96 ∨ cb = 97 then .Press .WheelUp cx cy
                else .Unknown)))

/-- `parse_csi_x10_mouse`: `ESC [ M CB Cx Cy` (6 bytes).  `CB` is
`buffer[3] as i8 - 32` (an `i8` value below -128 overflows in debug
builds); its two's-complement bit pattern drives the button mask.  The
coordinates are `byte.saturating_sub(32) as u16 - 1` — `Nat` subtraction
is the saturating part, the final `- 1` underflows at 0. -/
def parse_csi_x10_mouse (buffer : List Nat) : ParseResult :=
  if buffer.length < 6 then .incomplete
  else
    let b3 := buffer.getD 3 0
    let cbI : Int := (if b3 < 128 then (b3 : Int) else (b3 : Int) - 256) - 32
    if cbI < -128 then .panicked
    else
      let cb := (cbI.emod 256).toNat
      let cx0 := buffer.getD 4 0 - 32
      if cx0 = 0 then .panicked
      else
        let cx := cx0 - 1
        let cy0 := buffer.getD 5 0 - 32
        if cy0 = 0 then .panicked
        else
          let cy := cy0 - 1
          .event (.Input (.Mouse (
            if cb % 4 = 0 then
              if cb.testBit 6 then .Press .WheelUp cx cy else .Press .Left cx cy
            else if cb % 4 = 1 then
              if cb.testBit 6 then .Press .WheelDown cx cy else .Press .Middle cx cy
            else if cb % 4 = 2 then .Press .Right cx cy
            else .Release cx cy)))

/-- `parse_csi_xterm_mouse`: `ESC [ < Cb ; Cx ; Cy (;) (M or m)`; waits
until the buffer ends with a terminator, then parses `u16` fields and
decrements the coordinates (underflow at 0). -/
def parse_csi_xterm_mouse (buffer : List Nat) : ParseResult :=
  if ¬(lastByte buffer = 109 ∨ lastByte buffer = 77) then .incomplete
  else
    match utf8DecodeList (sliceRust buffer 3 (buffer.length - 1)) with
    | none => .invalid
    | some s =>
      let parts := splitSemi s
      match next_parsed 65536 parts 0 with
      | none => .invalid
      | some cb =>
        match next_parsed 65536 parts 1 with
        | none => .invalid
        | some cx0 =>
          if cx0 = 0 then .panicked
          else
            match next_parsed 65536 parts 2 with
            | none => .invalid
            | some cy0 =>
              if cy0 = 0 then .panicked
              else
                let cx := cx0 - 1
                let cy := cy0 - 1
                .event (.Input (
                  if cb ≤ 2 ∨ (64 ≤ cb ∧ cb ≤ 65) then
                    let button : MouseButton :=
                      if cb = 0 then .Left
                      else if cb = 1 then .Middle
                      else if cb = 2 then .Right
                      else if cb = 64 then .WheelUp
                      else .WheelDown
                    if lastByte buffer = 77 then .Mouse (.Press button cx cy)
                    else if lastByte buffer = 109 then .Mouse (.Release cx cy)
                    else .Unknown
                  else if cb = 32 then .Mouse (.Hold cx cy)
                  else if cb = 3 then .Mouse (.Release cx cy)
                  else .Unknown))

/-- The UTF-8 lead-byte classification in `parse_utf8_char`'s error
branch: how many bytes the code point needs, `none` for a malformed lead
byte. -/
def requiredBytesOf (b : Nat) : Option Nat :=
  if b ≤ 0x7F then some 1
  else if 0xC0 ≤ b ∧ b ≤ 0xDF then some 2
  else if 0xE0 ≤ b ∧ b ≤ 0xEF then some 3
  else if 0xF0 ≤ b ∧ b ≤ 0xF7 then some 4
  else none

/-- `parse_utf8_char` from src/sys/unix.rs: try `from_utf8` on the whole
buffer and take the first char; on failure classify the lead byte, check
every remaining byte for the `10xxxxxx` pattern, and report `Incomplete`
only when all bytes so far look valid but too few have arrived. -/
def parse_utf8_char (buffer : List Nat) : ParseResult :=
  match utf8DecodeList buffer with
  | some s =>
    match s with
    | [] => .invalid
    | c :: _ => .event (.Input (.Keyboard (.Char (Char.ofNat c))))
  | none =>
    match requiredBytesOf (buffer.getD 0 0) with
    | none => .invalid
    | some required =>
      if 1 < required ∧ 1 < buffer.length ∧
          ¬(buffer.tail.all fun b => b &&& 192 == 128) then .invalid
      else if buffer.length < required then .incomplete
      else .invalid

/-- `parse_csi` from src/sys/unix.rs: dispatch on `buffer[2]` (the byte
after `ESC [`), and for numbered codes on the final byte once it falls in
`64..=126`. -/
def parse_csi (buffer : List Nat) : ParseResult :=
  if buffer.length = 2 then .incomplete
  else
    let b2 := buffer.getD 2 0
    if b2 = 91 then
      if buffer.length = 3 then .incomplete
      else
        let val := buffer.getD 3 0
        if 65 ≤ val ∧ val ≤ 69 then .event (.Input (.Keyboard (.F (1 + val - 65))))
        else .event (.Input .Unknown)
    else if b2 = 68 then .event (.Input (.Keyboard .Left))
    else if b2 = 67 then .event (.Input (.Keyboard .Right))
    else if b2 = 65 then .event (.Input (.Keyboard .Up))
    else if b2 = 66 then .event (.Input (.Keyboard .Down))
    else if b2 = 72 then .event (.Input (.Keyboard .Home))
    else if b2 = 70 then .event (.Input (.Keyboard .End))
    else if b2 = 90 then .event (.Input (.Keyboard .BackTab))
    else if b2 = 77 then parse_csi_x10_mouse buffer
    else if b2 = 60 then parse_csi_xterm_mouse buffer
    else if 48 ≤ b2 ∧ b2 ≤ 57 then
      if buffer.length = 3 then .incomplete
      else
        let last := lastByte buffer
        if last < 64 ∨ 126 < last then .incomplete
        else if last = 77 then parse_csi_rxvt_mouse buffer
        else if last = 126 then parse_csi_special_key_code buffer
        else if last = 82 then parse_csi_cursor_position buffer
        else parse_csi_modifier_key_code buffer
    else .event (.Input .Unknown)

/-- `parse_event` from src/sys/unix.rs: the top-level decoder,
`decode(buffer, more_input_pending)` in the specification's terms. -/
def parse_event (buffer : List Nat) (input_available : Bool) : ParseResult :=
  match buffer with
  | [] => .incomplete
  | b0 :: _ =>
    if b0 = 27 then
      if buffer.length = 1 then
        if input_available then .incomplete
        else .event (.Input (.Keyboard .Esc))
      else
        let b1 := buffer.getD 1 0
        if b1 = 79 then
          if buffer.length = 2 then .incomplete
          else
            let v := buffer.getD 2 0
            if 80 ≤ v ∧ v ≤ 83 then .event (.Input (.Keyboard (.F (1 + v - 80))))
            else .invalid
        else if b1 = 91 then parse_csi buffer
        else if b1 = 27 then .event (.Input (.Keyboard .Esc))
        else parse_utf8_char buffer
    else if b0 = 13 ∨ b0 = 10 then .event (.Input (.Keyboard .Enter))
    else if b0 = 9 then .event (.Input (.Keyboard .Tab))
    else if b0 = 127 then .event (.Input (.Keyboard .Backspace))
    else if 1 ≤ b0 ∧ b0 ≤ 26 then
      .event (.Input (.Keyboard (.Ctrl (Char.ofNat (b0 - 1 + 97)))))
    else if 28 ≤ b0 ∧ b0 ≤ 31 then
      .event (.Input (.Keyboard (.Ctrl (Char.ofNat (b0 - 28 + 52)))))
    else if b0 = 0 then .event (.Input (.Keyboard .Null))
    else parse_utf8_char buffer

/-! ## The distributor (src/sys/unix.rs, `UnixInternalEventChannels`)

One `mpsc::Sender`/`Receiver` pair per registered consumer, the sender
list behind a mutex.  `send` (the publish operation) walks the whole
list and sends the event to every channel; `receiver` (registration)
appends a fresh channel.  The mutex serializes registration, publication
and draining, so a run of the system is a sequence of these operations;
each channel buffers its undrained events in FIFO order.  Ghost fields
record the full publication history and, per consumer, how many events
had been published when it registered and what it has drained so far.
(Removal of closed channels and consumer drops are not exercised by the
claims and are not modelled.) -/

structure Channels where
  queues : List (List InternalEvent)
  observed : List (List InternalEvent)
  regAt : List Nat
  published : List InternalEvent
  deriving DecidableEq, Repr

/-- One serialized operation on the channel registry. -/
inductive ChanOp
  | register
  | send (e : InternalEvent)
  | drain (i : Nat)
  deriving DecidableEq, Repr

/-- `receiver()` appends a fresh empty channel; `send(e)` appends `e` to
every channel's buffer; a drain (the consumer's `recv`/`try_iter` loop)
moves channel `i`'s buffered events, in order, to its observed log. -/
def applyOp (s : Channels) : ChanOp → Channels
  | .register =>
    { queues := s.queues ++ [[]]
      observed := s.observed ++ [[]]
      regAt := s.regAt ++ [s.published.length]
      published := s.published }
  | .send e =>
    { s with
      queues := s.queues.map (fun q => q ++ [e])
      published := s.published ++ [e] }
  | .drain i =>
    { s with
      observed := s.observed.set i (s.observed.getD i [] ++ s.queues.getD i [])
      queues := s.queues.set i [] }

/-- The empty registry (`UnixInternalEventChannels::new`). -/
def initChannels : Channels := ⟨[], [], [], []⟩

/-- Run a sequence of serialized operations from the empty registry. -/
def runOps (ops : List ChanOp) : Channels := ops.foldl applyOp initChannels

/-- The registry invariant: per-consumer bookkeeping lists stay aligned,
and what consumer `i` has observed so far followed by what still sits in
its queue is exactly the suffix of the publication history that started
at its registration. -/
def ChanInv (s : Channels) : Prop :=
  s.queues.length = s.observed.length ∧
  s.queues.length = s.regAt.length ∧
  ∀ i, i < s.queues.length →
    (s.observed.getD i [] ++ s.queues.getD i []
      = s.published.drop (s.regAt.getD i 0)) ∧
    s.regAt.getD i 0 ≤ s.published.length

/-! ## The `read_until_async` reading thread (src/input/unix.rs)

`read_until_async(delimiter)` hands `AsyncReader::new` a closure that
reads tty bytes one by one, sends each to the reader's channel, and
returns right after sending the delimiter byte.  `AsyncReader::new`
spawns `thread::spawn(move || loop { function(..) })` — the closure runs
inside an unconditional `loop`, so when it returns it is immediately
invoked again on the rest of the tty stream.  The tty is modelled as the
finite list of bytes it will ever produce; channel sends are assumed to
succeed and the cancellation token to stay unset. -/

/-- One invocation of the `read_until_async` closure: the bytes it sends
(the delimiter included) and the tty bytes left unread when it returns. -/
def readUntilOnce (delimiter : Nat) : List Nat → List Nat × List Nat
  | [] => ([], [])
  | b :: rest =>
    if b = delimiter then ([b], rest)
    else
      let p := readUntilOnce delimiter rest
      (b :: p.1, p.2)

/-- Worker for `readUntilLoop`.  The fuel only bounds the number of times
the `loop` re-invokes the closure and never runs out when it starts at
the byte count, since every invocation consumes at least one tty byte. -/
def readUntilLoopAux : Nat → Nat → List Nat → List Nat
  | _, _, [] => []
  | 0, _, _ :: _ => []
  | fuel + 1, delimiter, b :: rest =>
    let p := readUntilOnce delimiter (b :: rest)
    p.1 ++ readUntilLoopAux fuel delimiter p.2

/-- All bytes the spawned thread ever sends to the reader's channel: the
`loop` keeps re-invoking the closure on the remaining stream. -/
def readUntilLoop (delimiter : Nat) (tty : List Nat) : List Nat :=
  readUntilLoopAux tty.length delimiter tty

/-! ## Specification-side mappings

Transcribed from the specification's wording (section 4.1 and the claim
texts), to be compared with what the embedded decoder produces. -/

/-- The special-key table of the specification: `1|7` Home, `2` Insert,
`3` Delete, `4|8` End, `5` PageUp, `6` PageDown, `11..15` F1-F5,
`17..21` F6-F10, `23|24` F11-F12, anything else Unknown. -/
def specialKeySpec (v : Nat) : InputEvent :=
  if v = 1 ∨ v = 7 then .Keyboard .Home
  else if v = 2 then .Keyboard .Insert
  else if v = 3 then .Keyboard .Delete
  else if v = 4 ∨ v = 8 then .Keyboard .End
  else if v = 5 then .Keyboard .PageUp
  else if v = 6 then .Keyboard .PageDown
  else if 11 ≤ v ∧ v ≤ 15 then .Keyboard (.F (v - 10))
  else if 17 ≤ v ∧ v ≤ 21 then .Keyboard (.F (v - 11))
  else if 23 ≤ v ∧ v ≤ 24 then .Keyboard (.F (v - 12))
  else .Unknown

/-- The xterm SGR mapping of the specification: terminator `M` is a
press for `Cb` 0/1/2 (Left/Middle/Right) and 64/65 (WheelUp/WheelDown),
terminator `m` a release for those codes; `Cb` 32 is Hold and 3 is
Release; coordinates are the wire values minus one. -/
def xtermSpec (vb vx vy t : Nat) : InputEvent :=
  if vb = 0 ∨ vb = 1 ∨ vb = 2 ∨ vb = 64 ∨ vb = 65 then
    if t = 77 then
      .Mouse (.Press
        (if vb = 0 then .Left
         else if vb = 1 then .Middle
         else if vb = 2 then .Right
         else if vb = 64 then .WheelUp
         else .WheelDown) (vx - 1) (vy - 1))
    else .Mouse (.Release (vx - 1) (vy - 1))
  else if vb = 32 then .Mouse (.Hold (vx - 1) (vy - 1))
  else if vb = 3 then .Mouse (.Release (vx - 1) (vy - 1))
  else .Unknown

/-! ## List and parsing lemmas -/

theorem utf8DecodeAux_ascii (fuel : Nat) (l : List Nat) (hf : l.length ≤ fuel)
    (h : ∀ b ∈ l, b < 128) : utf8DecodeAux fuel l = some l := by
  induction fuel generalizing l with
  | zero =>
    cases l with
    | nil => rfl
    | cons b rest => simp at hf
  | succ fuel ih =>
    cases l with
    | nil => rfl
    | cons b rest =>
      have hb : b < 128 := h b (List.mem_cons_self b rest)
      have hrest : ∀ x ∈ rest, x < 128 := fun x hx => h x (List.mem_cons_of_mem b hx)
      have hlen : rest.length ≤ fuel := by
        simp only [List.length_cons] at hf
        omega
      simp [utf8DecodeAux, hb, ih rest hlen hrest]

theorem utf8DecodeList_ascii (l : List Nat) (h : ∀ b ∈ l, b < 128) :
    utf8DecodeList l = some l :=
  utf8DecodeAux_ascii l.length l le_rfl h

theorem splitSemi_no_semi (l : List Nat) (h : ¬ 59 ∈ l) : splitSemi l = [l] := by
  induction l with
  | nil => rfl
  | cons c rest ih =>
    have hc : c ≠ 59 := fun hh => h (hh ▸ List.mem_cons_self c rest)
    have hrest : ¬ 59 ∈ rest := fun hh => h (List.mem_cons_of_mem c hh)
    rw [splitSemi, if_neg hc, ih hrest]
    rfl

theorem splitSemi_append (A B : List Nat) (h : ¬ 59 ∈ A) :
    splitSemi (A ++ 59 :: B) = A :: splitSemi B := by
  induction A with
  | nil =>
    rw [List.nil_append, splitSemi, if_pos rfl]
  | cons c rest ih =>
    have hc : c ≠ 59 := fun hh => h (hh ▸ List.mem_cons_self c rest)
    have hrest : ¬ 59 ∈ rest := fun hh => h (List.mem_cons_of_mem c hh)
    rw [List.cons_append, splitSemi, if_neg hc, ih hrest]
    rfl

theorem digit_lt_128 (l : List Nat) (h : l.all isDigitByte = true) :
    ∀ b ∈ l, b < 128 := by
  intro b hb
  have := (List.all_eq_true.mp h) b hb
  simp only [isDigitByte, decide_eq_true_eq] at this
  omega

theorem digit_no_semi (l : List Nat) (h : l.all isDigitByte = true) : ¬ 59 ∈ l := by
  intro hb
  have := (List.all_eq_true.mp h) 59 hb
  simp [isDigitByte] at this

theorem parseUNat_digits (bound : Nat) (l : List Nat) (hne : l ≠ [])
    (hd : l.all isDigitByte = true) (hb : digitsVal l < bound) :
    parseUNat bound l = some (digitsVal l) := by
  obtain ⟨c, rest, rfl⟩ := List.exists_cons_of_ne_nil hne
  have hc := (List.all_eq_true.mp hd) c (List.mem_cons_self c rest)
  simp only [isDigitByte, decide_eq_true_eq] at hc
  have hc43 : c ≠ 43 := by omega
  simp [parseUNat, if_neg hc43, hd, hb]

theorem getD_map_lt (f : List InternalEvent → List InternalEvent)
    (l : List (List InternalEvent)) (i : Nat) (h : i < l.length) :
    (l.map f).getD i [] = f (l.getD i []) := by
  induction l generalizing i with
  | nil => simp at h
  | cons a rest ih =>
    cases i with
    | zero => simp
    | succ j =>
      simp only [List.map_cons, List.getD_cons_succ]
      exact ih j (by simpa using h)

theorem getD_set_self {α : Type} (l : List α) (i : Nat) (a d : α)
    (h : i < l.length) : (l.set i a).getD i d = a := by
  rw [List.getD_eq_getElem?_getD, List.getElem?_set_self (by simpa using h)]
  rfl

theorem getD_set_ne {α : Type} (l : List α) (i j : Nat) (a d : α)
    (h : i ≠ j) : (l.set i a).getD j d = l.getD j d := by
  rw [List.getD_eq_getElem?_getD, List.getElem?_set_ne h,
    ← List.getD_eq_getElem?_getD]

theorem getD_last_concat {α : Type} (A : List α) (x d : α) :
    (A ++ [x]).getD A.length d = x := by
  rw [List.getD_append_right A [x] d A.length le_rfl]
  simp

theorem sliceRust_drop2 (x y t : Nat) (mid : List Nat) :
    sliceRust (x :: y :: (mid ++ [t])) 2 ((x :: y :: (mid ++ [t])).length - 1) = mid := by
  have hlen : (x :: y :: (mid ++ [t])).length - 1 = mid.length + 2 := by
    simp [List.length_append]
  unfold sliceRust
  rw [hlen, List.take_succ_cons, List.take_succ_cons,
    List.take_append_of_le_length le_rfl, List.take_length, List.drop_succ_cons,
    List.drop_succ_cons, List.drop_zero]

theorem sliceRust_drop3 (x y z t : Nat) (mid : List Nat) :
    sliceRust (x :: y :: z :: (mid ++ [t])) 3
      ((x :: y :: z :: (mid ++ [t])).length - 1) = mid := by
  have hlen : (x :: y :: z :: (mid ++ [t])).length - 1 = mid.length + 3 := by
    simp [List.length_append]
  unfold sliceRust
  rw [hlen, List.take_succ_cons, List.take_succ_cons, List.take_succ_cons,
    List.take_append_of_le_length le_rfl, List.take_length, List.drop_succ_cons,
    List.drop_succ_cons, List.drop_succ_cons, List.drop_zero]

theorem getLastD_concat_eq {α : Type} (A : List α) (t : α) :
    ∀ d, (A ++ [t]).getLastD d = t := by
  induction A with
  | nil => intro d; rfl
  | cons a rest ih =>
    intro d
    rw [List.cons_append, List.getLastD_cons]
    exact ih a

theorem lastByte_concat (A : List Nat) (t : Nat) : lastByte (A ++ [t]) = t :=
  getLastD_concat_eq A t 0

theorem getLastD_mem {α : Type} (l : List α) (h : l ≠ []) :
    ∀ d, l.getLastD d ∈ l := by
  induction l with
  | nil => exact absurd rfl h
  | cons a rest ih =>
    intro d
    rw [List.getLastD_cons]
    cases hr : rest with
    | nil => subst hr; exact List.mem_cons_self a []
    | cons b rs =>
      subst hr
      exact List.mem_cons_of_mem a (ih (by simp) a)

theorem parse_event_to_csi (rest : List Nat) (hb : Bool) :
    parse_event (27 :: 91 :: rest) hb = parse_csi (27 :: 91 :: rest) := by
  have h1 : (27 :: 91 :: rest).length ≠ 1 := by simp
  unfold parse_event
  simp [h1]

theorem parse_csi_digit_route (d : Nat) (drest : List Nat) (t : Nat)
    (hd : 48 ≤ d ∧ d ≤ 57) (ht : 64 ≤ t) (ht2 : t ≤ 126) :
    parse_csi (27 :: 91 :: d :: (drest ++ [t])) =
      if t = 77 then parse_csi_rxvt_mouse (27 :: 91 :: d :: (drest ++ [t]))
      else if t = 126 then parse_csi_special_key_code (27 :: 91 :: d :: (drest ++ [t]))
      else if t = 82 then parse_csi_cursor_position (27 :: 91 :: d :: (drest ++ [t]))
      else parse_csi_modifier_key_code (27 :: 91 :: d :: (drest ++ [t])) := by
  have hlast : lastByte (27 :: 91 :: d :: (drest ++ [t])) = t := by
    have hsh : (27 : Nat) :: 91 :: d :: (drest ++ [t]) = (27 :: 91 :: d :: drest) ++ [t] := by
      simp
    rw [hsh, lastByte_concat]
  have hlen2 : (27 :: 91 :: d :: (drest ++ [t])).length ≠ 2 := by
    simp [List.length_append]
  have hlen3 : (27 :: 91 :: d :: (drest ++ [t])).length ≠ 3 := by
    simp [List.length_append]
  have h91 : d ≠ 91 := by omega
  have h68 : d ≠ 68 := by omega
  have h67 : d ≠ 67 := by omega
  have h65 : d ≠ 65 := by omega
  have h66 : d ≠ 66 := by omega
  have h72 : d ≠ 72 := by omega
  have h70 : d ≠ 70 := by omega
  have h90 : d ≠ 90 := by omega
  have h77 : d ≠ 77 := by omega
  have h60 : d ≠ 60 := by omega
  have hnot : ¬(t < 64 ∨ 126 < t) := by omega
  unfold parse_csi
  simp [hlen2, hlen3, h91, h68, h67, h65, h66, h72, h70, h90, h77, h60, hd.1, hd.2,
    hlast, hnot]

theorem ascii_digits_semi (A B : List Nat) (hA : A.all isDigitByte = true)
    (hB : B.all isDigitByte = true) : ∀ b ∈ A ++ 59 :: B, b < 128 := by
  intro b hb
  rcases List.mem_append.mp hb with h | h
  · exact digit_lt_128 A hA b h
  · rcases List.mem_cons.mp h with rfl | h
    · omega
    · exact digit_lt_128 B hB b h

theorem parse_csi_cursor_position_eval (drow dcol : List Nat)
    (h1 : drow ≠ []) (h2 : drow.all isDigitByte = true)
    (h3 : dcol ≠ []) (h4 : dcol.all isDigitByte = true)
    (hbr : digitsVal drow < 65536) (hbc : digitsVal dcol < 65536)
    (hr1 : digitsVal drow ≠ 0) (hc1 : digitsVal dcol ≠ 0) :
    parse_csi_cursor_position (27 :: 91 :: ((drow ++ 59 :: dcol) ++ [82]))
      = .event (.CursorPosition (digitsVal dcol - 1) (digitsVal drow - 1)) := by
  unfold parse_csi_cursor_position
  simp only [sliceRust_drop2,
    utf8DecodeList_ascii (drow ++ 59 :: dcol) (ascii_digits_semi _ _ h2 h4),
    splitSemi_append drow dcol (digit_no_semi _ h2),
    splitSemi_no_semi dcol (digit_no_semi _ h4),
    next_parsed, List.get?, parseUNat_digits 65536 drow h1 h2 hbr,
    parseUNat_digits 65536 dcol h3 h4 hbc, if_neg hr1, if_neg hc1]

theorem digit_head_bounds (d : Nat) (dr : List Nat)
    (h : (d :: dr).all isDigitByte = true) : 48 ≤ d ∧ d ≤ 57 := by
  have := (List.all_eq_true.mp h) d (List.mem_cons_self d dr)
  simpa [isDigitByte] using this

/-- C7: For every numbered CSI sequence `ESC [ row ; col R` carrying
two one-based `u16` numbers, the decoder emits the internal event
`CursorPosition(col - 1, row - 1)`. -/
theorem cursor_position_report (drow dcol : List Nat) (hb : Bool)
    (h1 : drow ≠ []) (h2 : drow.all isDigitByte = true)
    (h3 : dcol ≠ []) (h4 : dcol.all isDigitByte = true)
    (hrow1 : 1 ≤ digitsVal drow) (hrowB : digitsVal drow < 65536)
    (hcol1 : 1 ≤ digitsVal dcol) (hcolB : digitsVal dcol < 65536) :
    parse_event ([27, 91] ++ drow ++ [59] ++ dcol ++ [82]) hb
      = .event (.CursorPosition (digitsVal dcol - 1) (digitsVal drow - 1)) := by
  obtain ⟨d, dr, rfl⟩ := List.exists_cons_of_ne_nil h1
  have hshape : ([27, 91] : List Nat) ++ (d :: dr) ++ [59] ++ dcol ++ [82]
      = 27 :: 91 :: d :: ((dr ++ 59 :: dcol) ++ [82]) := by simp
  rw [hshape, parse_event_to_csi,
    parse_csi_digit_route d (dr ++ 59 :: dcol) 82 (digit_head_bounds d dr h2)
      (by omega) (by omega)]
  norm_num
  have heval := parse_csi_cursor_position_eval (d :: dr) dcol h1 h2 h3 h4 hrowB hcolB
    (by omega) (by omega)
  simp only [List.cons_append, List.append_assoc] at heval ⊢
  exact heval

theorem cursor_position_report_witness :
    parse_event [27, 91, 50, 48, 59, 49, 48, 82] false = .event (.CursorPosition 9 19) := by
  have h := cursor_position_report [50, 48] [49, 48] false (by decide) (by decide)
    (by decide) (by decide) (by decide) (by decide) (by decide) (by decide)
  simpa using h

theorem parse_csi_special_single_eval (dv : List Nat)
    (h1 : dv ≠ []) (h2 : dv.all isDigitByte = true) (hB : digitsVal dv < 256) :
    parse_csi_special_key_code (27 :: 91 :: (dv ++ [126]))
      = .event (.Input (specialKeySpec (digitsVal dv))) := by
  unfold parse_csi_special_key_code specialKeySpec
  simp only [sliceRust_drop2, utf8DecodeList_ascii dv (digit_lt_128 dv h2),
    splitSemi_no_semi dv (digit_no_semi dv h2), next_parsed, List.get?,
    parseUNat_digits 256 dv h1 h2 hB, Option.isSome_none, Bool.false_eq_true,
    if_false]

theorem parse_csi_special_double_eval (dv dw : List Nat)
    (h1 : dv ≠ []) (h2 : dv.all isDigitByte = true) (hB : digitsVal dv < 256)
    (h3 : dw ≠ []) (h4 : dw.all isDigitByte = true) (hC : digitsVal dw < 256) :
    parse_csi_special_key_code (27 :: 91 :: ((dv ++ 59 :: dw) ++ [126]))
      = .event (.Input .Unknown) := by
  unfold parse_csi_special_key_code
  simp only [sliceRust_drop2,
    utf8DecodeList_ascii (dv ++ 59 :: dw) (ascii_digits_semi _ _ h2 h4),
    splitSemi_append dv dw (digit_no_semi dv h2),
    splitSemi_no_semi dw (digit_no_semi dw h4), next_parsed, List.get?,
    parseUNat_digits 256 dv h1 h2 hB, parseUNat_digits 256 dw h3 h4 hC,
    Option.isSome_some, if_true]

theorem ascii_digits_semi3 (A B C tail : List Nat)
    (hA : A.all isDigitByte = true) (hB : B.all isDigitByte = true)
    (hC : C.all isDigitByte = true) (htail : ∀ b ∈ tail, b < 128) :
    ∀ b ∈ A ++ 59 :: (B ++ 59 :: (C ++ tail)), b < 128 := by
  intro b hb
  simp only [List.mem_append, List.mem_cons] at hb
  rcases hb with h | h | h | h | h | h
  · exact digit_lt_128 A hA b h
  · omega
  · exact digit_lt_128 B hB b h
  · omega
  · exact digit_lt_128 C hC b h
  · exact htail b h

theorem parse_csi_rxvt_eval (dcb dcx dcy : List Nat)
    (hcb1 : dcb ≠ []) (hcb2 : dcb.all isDigitByte = true)
    (hR : digitsVal dcb ∈ [32, 33, 34, 35, 64, 96, 97])
    (hx1 : dcx ≠ []) (hx2 : dcx.all isDigitByte = true)
    (hxB : digitsVal dcx < 65536) (hx0 : digitsVal dcx ≠ 0)
    (hy1 : dcy ≠ []) (hy2 : dcy.all isDigitByte = true)
    (hyB : digitsVal dcy < 65536) (hy0 : digitsVal dcy ≠ 0) :
    ∃ m, parse_csi_rxvt_mouse
        (27 :: 91 :: ((dcb ++ 59 :: (dcx ++ 59 :: (dcy ++ [59]))) ++ [77]))
        = .event (.Input (.Mouse m)) ∧
      mouseCoords m = some (digitsVal dcx - 1, digitsVal dcy - 1) := by
  have hcbB : digitsVal dcb < 65536 := by
    simp only [List.mem_cons, List.not_mem_nil, or_false] at hR
    omega
  unfold parse_csi_rxvt_mouse
  simp only [sliceRust_drop2,
    utf8DecodeList_ascii (dcb ++ 59 :: (dcx ++ 59 :: (dcy ++ [59])))
      (ascii_digits_semi3 dcb dcx dcy [59] hcb2 hx2 hy2 (by intro b hb; simp at hb; omega)),
    splitSemi_append dcb _ (digit_no_semi dcb hcb2),
    splitSemi_append dcx _ (digit_no_semi dcx hx2),
    splitSemi_append dcy _ (digit_no_semi dcy hy2),
    next_parsed, List.get?, parseUNat_digits 65536 dcb hcb1 hcb2 hcbB,
    parseUNat_digits 65536 dcx hx1 hx2 hxB,
    parseUNat_digits 65536 dcy hy1 hy2 hyB, if_neg hx0, if_neg hy0]
  refine ⟨_, rfl, ?_⟩
  simp only [List.mem_cons, List.not_mem_nil, or_false] at hR
  rcases hR with h | h | h | h | h | h | h <;> simp [h, mouseCoords]

theorem parse_csi_x10_eval (b3 b4 b5 : Nat) (hb3 : b3 < 128 ∨ 160 ≤ b3)
    (h4 : 33 ≤ b4) (h5 : 33 ≤ b5) :
    ∃ m, parse_csi_x10_mouse [27, 91, 77, b3, b4, b5]
        = .event (.Input (.Mouse m)) ∧
      mouseCoords m = some (b4 - 33, b5 - 33) := by
  have hlen : ¬([27, 91, 77, b3, b4, b5].length < 6) := by simp
  have hcb : ¬((if b3 < 128 then (b3 : Int) else (b3 : Int) - 256) - 32 < -128) := by
    rcases hb3 with h | h
    · rw [if_pos h]; omega
    · rw [if_neg (by omega)]; omega
  have hx : ¬(b4 - 32 = 0) := by omega
  have hy : ¬(b5 - 32 = 0) := by omega
  unfold parse_csi_x10_mouse
  simp only [List.getD_cons_succ, List.getD_cons_zero]
  rw [if_neg hlen, if_neg hcb, if_neg hx, if_neg hy]
  refine ⟨_, rfl, ?_⟩
  repeat' split
  all_goals simp only [mouseCoords, Option.some.injEq, Prod.mk.injEq]
  all_goals omega

theorem parse_csi_xterm_eval (dcb dcx dcy sep : List Nat) (t : Nat)
    (hsep : sep = [] ∨ sep = [59]) (ht : t = 77 ∨ t = 109)
    (hcb1 : dcb ≠ []) (hcb2 : dcb.all isDigitByte = true)
    (hR : digitsVal dcb ∈ [0, 1, 2, 3, 32, 64, 65])
    (hx1 : dcx ≠ []) (hx2 : dcx.all isDigitByte = true)
    (hxB : digitsVal dcx < 65536) (hx0 : digitsVal dcx ≠ 0)
    (hy1 : dcy ≠ []) (hy2 : dcy.all isDigitByte = true)
    (hyB : digitsVal dcy < 65536) (hy0 : digitsVal dcy ≠ 0) :
    parse_csi_xterm_mouse
        (27 :: 91 :: 60 :: ((dcb ++ 59 :: (dcx ++ 59 :: (dcy ++ sep))) ++ [t]))
      = .event (.Input (xtermSpec (digitsVal dcb) (digitsVal dcx) (digitsVal dcy) t)) := by
  have hcbB : digitsVal dcb < 65536 := by
    simp only [List.mem_cons, List.not_mem_nil, or_false] at hR
    omega
  have hlast : lastByte
      (27 :: 91 :: 60 :: ((dcb ++ 59 :: (dcx ++ 59 :: (dcy ++ sep))) ++ [t])) = t := by
    have hsh : (27 : Nat) :: 91 :: 60 :: ((dcb ++ 59 :: (dcx ++ 59 :: (dcy ++ sep))) ++ [t])
        = (27 :: 91 :: 60 :: (dcb ++ 59 :: (dcx ++ 59 :: (dcy ++ sep)))) ++ [t] := by
      simp
    rw [hsh, lastByte_concat]
  have hterm : ¬¬(lastByte
      (27 :: 91 :: 60 :: ((dcb ++ 59 :: (dcx ++ 59 :: (dcy ++ sep))) ++ [t])) = 109 ∨
      lastByte
      (27 :: 91 :: 60 :: ((dcb ++ 59 :: (dcx ++ 59 :: (dcy ++ sep))) ++ [t])) = 77) := by
    rw [hlast]
    rcases ht with h | h <;> simp [h]
  have hsepa : ∀ b ∈ sep, b < 128 := by
    rcases hsep with h | h <;> (subst h; intro b hb; simp at hb)
    omega
  unfold parse_csi_xterm_mouse
  rw [if_neg hterm, hlast]
  have hsplit : splitSemi (dcb ++ 59 :: (dcx ++ 59 :: (dcy ++ sep)))
      = dcb :: dcx :: splitSemi (dcy ++ sep) := by
    rw [splitSemi_append dcb _ (digit_no_semi dcb hcb2),
      splitSemi_append dcx _ (digit_no_semi dcx hx2)]
  have hparts : ∀ i, i ≤ 2 →
      next_parsed 65536 (splitSemi (dcb ++ 59 :: (dcx ++ 59 :: (dcy ++ sep)))) i
        = next_parsed 65536 [dcb, dcx, dcy] i := by
    intro i hi
    rw [hsplit]
    rcases hsep with h | h <;> subst h
    · rw [List.append_nil, splitSemi_no_semi dcy (digit_no_semi dcy hy2)]
    · rw [splitSemi_append dcy [] (digit_no_semi dcy hy2)]
      interval_cases i <;> rfl
  simp only [sliceRust_drop3,
    utf8DecodeList_ascii (dcb ++ 59 :: (dcx ++ 59 :: (dcy ++ sep)))
      (ascii_digits_semi3 dcb dcx dcy sep hcb2 hx2 hy2 hsepa)]
  simp only [hparts 0 (by omega), hparts 1 (by omega), hparts 2 (by omega)]
  simp only [next_parsed, List.get?, parseUNat_digits 65536 dcb hcb1 hcb2 hcbB,
    parseUNat_digits 65536 dcx hx1 hx2 hxB,
    parseUNat_digits 65536 dcy hy1 hy2 hyB, if_neg hx0, if_neg hy0]
  simp only [List.mem_cons, List.not_mem_nil, or_false] at hR
  rcases hR with h | h | h | h | h | h | h <;>
    rcases ht with h2 | h2 <;>
      simp [h, h2, xtermSpec]

theorem parse_csi_xterm_incomplete (rest : List Nat) (hb : Bool)
    (h : ∀ b ∈ rest, ¬(b = 77 ∨ b = 109)) :
    parse_event (27 :: 91 :: 60 :: rest) hb = .incomplete := by
  rw [parse_event_to_csi]
  have hlen2 : (27 :: 91 :: 60 :: rest).length ≠ 2 := by simp
  have hlast : ¬(lastByte (27 :: 91 :: 60 :: rest) = 109 ∨
      lastByte (27 :: 91 :: 60 :: rest) = 77) := by
    cases rest with
    | nil => decide
    | cons r rs =>
      have hmem : (r :: rs).getLastD 60 ∈ r :: rs := getLastD_mem (r :: rs) (by simp) 60
      have heq : lastByte (27 :: 91 :: 60 :: r :: rs) = (r :: rs).getLastD 60 := by
        show (27 :: 91 :: 60 :: r :: rs).getLastD 0 = (r :: rs).getLastD 60
        rw [List.getLastD_cons, List.getLastD_cons, List.getLastD_cons]
      rw [heq]
      exact fun hor => h _ hmem (hor.elim Or.inr Or.inl)
  unfold parse_csi
  simp only [List.getD_cons_succ, List.getD_cons_zero, if_neg hlen2]
  norm_num
  unfold parse_csi_xterm_mouse
  rw [if_pos hlast]

theorem parse_csi_xterm_route (rest : List Nat) (hb : Bool) :
    parse_event (27 :: 91 :: 60 :: rest) hb
      = parse_csi_xterm_mouse (27 :: 91 :: 60 :: rest) := by
  rw [parse_event_to_csi]
  have hlen2 : (27 :: 91 :: 60 :: rest).length ≠ 2 := by simp
  unfold parse_csi
  simp only [List.getD_cons_succ, List.getD_cons_zero, if_neg hlen2]
  norm_num

theorem parse_csi_x10_route (rest : List Nat) (hb : Bool) :
    parse_event (27 :: 91 :: 77 :: rest) hb
      = parse_csi_x10_mouse (27 :: 91 :: 77 :: rest) := by
  rw [parse_event_to_csi]
  have hlen2 : (27 :: 91 :: 77 :: rest).length ≠ 2 := by simp
  unfold parse_csi
  simp only [List.getD_cons_succ, List.getD_cons_zero, if_neg hlen2]
  norm_num

/-- C2: For every mouse wire encoding the decoder emits coordinates
equal to the one-based wire coordinates minus 1: X10 (coordinate byte
`b` carries wire coordinate `b - 32`, emitted as `b - 32 - 1`), rxvt
(decimal `Cx`/`Cy` emitted as `Cx - 1`/`Cy - 1`) and xterm SGR
(likewise); and in particular the X10 buffer `"\x1B[M0\x60\x70"`
decodes to `Mouse(Press(Left, 63, 79))`. -/
theorem mouse_coords_minus_one :
    (∀ (b3 b4 b5 : Nat) (hb : Bool), b3 < 128 ∨ 160 ≤ b3 → 33 ≤ b4 → 33 ≤ b5 →
      ∃ m, parse_event [27, 91, 77, b3, b4, b5] hb = .event (.Input (.Mouse m)) ∧
        mouseCoords m = some (b4 - 33, b5 - 33)) ∧
    (∀ (dcb dcx dcy : List Nat) (hb : Bool),
      dcb ≠ [] → dcb.all isDigitByte = true →
      digitsVal dcb ∈ [32, 33, 34, 35, 64, 96, 97] →
      dcx ≠ [] → dcx.all isDigitByte = true →
      digitsVal dcx < 65536 → 1 ≤ digitsVal dcx →
      dcy ≠ [] → dcy.all isDigitByte = true →
      digitsVal dcy < 65536 → 1 ≤ digitsVal dcy →
      ∃ m, parse_event ([27, 91] ++ dcb ++ [59] ++ dcx ++ [59] ++ dcy ++ [59, 77]) hb
          = .event (.Input (.Mouse m)) ∧
        mouseCoords m = some (digitsVal dcx - 1, digitsVal dcy - 1)) ∧
    (∀ (dcb dcx dcy sep : List Nat) (t : Nat) (hb : Bool),
      sep = [] ∨ sep = [59] → t = 77 ∨ t = 109 →
      dcb ≠ [] → dcb.all isDigitByte = true →
      digitsVal dcb ∈ [0, 1, 2, 3, 32, 64, 65] →
      dcx ≠ [] → dcx.all isDigitByte = true →
      digitsVal dcx < 65536 → 1 ≤ digitsVal dcx →
      dcy ≠ [] → dcy.all isDigitByte = true →
      digitsVal dcy < 65536 → 1 ≤ digitsVal dcy →
      ∃ m, parse_event ([27, 91, 60] ++ dcb ++ [59] ++ dcx ++ [59] ++ dcy ++ sep ++ [t]) hb
          = .event (.Input (.Mouse m)) ∧
        mouseCoords m = some (digitsVal dcx - 1, digitsVal dcy - 1)) ∧
    parse_event [27, 91, 77, 48, 96, 112] false
      = .event (.Input (.Mouse (.Press .Left 63 79))) := by
  refine ⟨?_, ?_, ?_, by decide⟩
  · intro b3 b4 b5 hb h3 h4 h5
    rw [show ([27, 91, 77, b3, b4, b5] : List Nat) = 27 :: 91 :: 77 :: [b3, b4, b5] from rfl,
      parse_csi_x10_route]
    exact parse_csi_x10_eval b3 b4 b5 h3 h4 h5
  · intro dcb dcx dcy hb hcb1 hcb2 hR hx1 hx2 hxB hx0 hy1 hy2 hyB hy0
    obtain ⟨d, dr, rfl⟩ := List.exists_cons_of_ne_nil hcb1
    have hshape : ([27, 91] : List Nat) ++ (d :: dr) ++ [59] ++ dcx ++ [59] ++ dcy ++ [59, 77]
        = 27 :: 91 :: d :: ((dr ++ 59 :: (dcx ++ 59 :: (dcy ++ [59]))) ++ [77]) := by
      simp
    rw [hshape, parse_event_to_csi,
      parse_csi_digit_route d (dr ++ 59 :: (dcx ++ 59 :: (dcy ++ [59]))) 77
        (digit_head_bounds d dr hcb2) (by omega) (by omega)]
    norm_num
    have heval := parse_csi_rxvt_eval (d :: dr) dcx dcy hcb1 hcb2 hR hx1 hx2 hxB
      (by omega) hy1 hy2 hyB (by omega)
    simp only [List.cons_append, List.append_assoc] at heval ⊢
    exact heval
  · intro dcb dcx dcy sep t hb hsep ht hcb1 hcb2 hR hx1 hx2 hxB hx0 hy1 hy2 hyB hy0
    have hshape : ([27, 91, 60] : List Nat) ++ dcb ++ [59] ++ dcx ++ [59] ++ dcy ++ sep ++ [t]
        = 27 :: 91 :: 60 :: ((dcb ++ 59 :: (dcx ++ 59 :: (dcy ++ sep))) ++ [t]) := by
      simp
    rw [hshape, parse_csi_xterm_route,
      parse_csi_xterm_eval dcb dcx dcy sep t hsep ht hcb1 hcb2 hR hx1 hx2 hxB
        (by omega) hy1 hy2 hyB (by omega)]
    simp only [List.mem_cons, List.not_mem_nil, or_false] at hR
    rcases hR with h | h | h | h | h | h | h <;> rcases ht with h2 | h2 <;>
      (rw [h, h2]; simp [xtermSpec, mouseCoords])

theorem mouse_coords_minus_one_witness :
    (∃ m, parse_event [27, 91, 77, 48, 96, 112] false = .event (.Input (.Mouse m)) ∧
      mouseCoords m = some (63, 79)) ∧
    (∃ m, parse_event [27, 91, 51, 50, 59, 51, 48, 59, 52, 48, 59, 77] false
        = .event (.Input (.Mouse m)) ∧ mouseCoords m = some (29, 39)) ∧
    (∃ m, parse_event [27, 91, 60, 48, 59, 50, 48, 59, 49, 48, 59, 77] false
        = .event (.Input (.Mouse m)) ∧ mouseCoords m = some (19, 9)) := by
  refine ⟨?_, ?_, ?_⟩
  · have h := mouse_coords_minus_one.1 48 96 112 false (by decide) (by decide) (by decide)
    simpa using h
  · have h := mouse_coords_minus_one.2.1 [51, 50] [51, 48] [52, 48] false (by decide)
      (by decide) (by decide) (by decide) (by decide) (by decide) (by decide)
      (by decide) (by decide) (by decide) (by decide)
    simpa using h
  · have h := mouse_coords_minus_one.2.2.1 [48] [50, 48] [49, 48] [59] 77 false
      (by decide) (by decide) (by decide) (by decide) (by decide) (by decide)
      (by decide) (by decide) (by decide) (by decide) (by decide) (by decide)
      (by decide)
    simpa using h

/-- C5: For every buffer beginning `ESC [ <`, the decoder returns
Incomplete while no terminator byte `M`/`m` is present; once terminated,
`Cb` 0/1/2 yield a Left/Middle/Right press and 64/65 a
WheelUp/WheelDown press (terminator `M`; the `m` terminator makes those
codes a release), 32 yields Hold, 3 yields Release, and the emitted
coordinates are the parsed `Cx` and `Cy` minus 1 (`xtermSpec` is the
specification's table). -/
theorem xterm_sgr_decode :
    (∀ (rest : List Nat) (hb : Bool), (∀ b ∈ rest, b ≠ 77 ∧ b ≠ 109) →
      parse_event ([27, 91, 60] ++ rest) hb = .incomplete) ∧
    (∀ (dcb dcx dcy sep : List Nat) (t : Nat) (hb : Bool),
      sep = [] ∨ sep = [59] → t = 77 ∨ t = 109 →
      dcb ≠ [] → dcb.all isDigitByte = true →
      digitsVal dcb ∈ [0, 1, 2, 3, 32, 64, 65] →
      dcx ≠ [] → dcx.all isDigitByte = true →
      digitsVal dcx < 65536 → 1 ≤ digitsVal dcx →
      dcy ≠ [] → dcy.all isDigitByte = true →
      digitsVal dcy < 65536 → 1 ≤ digitsVal dcy →
      parse_event ([27, 91, 60] ++ dcb ++ [59] ++ dcx ++ [59] ++ dcy ++ sep ++ [t]) hb
        = .event (.Input (xtermSpec (digitsVal dcb) (digitsVal dcx) (digitsVal dcy) t))) := by
  constructor
  · intro rest hb h
    exact parse_csi_xterm_incomplete rest hb fun b hbm hor =>
      hor.elim (fun he => ((h b hbm).1 he)) (fun he => ((h b hbm).2 he))
  · intro dcb dcx dcy sep t hb hsep ht hcb1 hcb2 hR hx1 hx2 hxB hx0 hy1 hy2 hyB hy0
    have hshape : ([27, 91, 60] : List Nat) ++ dcb ++ [59] ++ dcx ++ [59] ++ dcy ++ sep ++ [t]
        = 27 :: 91 :: 60 :: ((dcb ++ 59 :: (dcx ++ 59 :: (dcy ++ sep))) ++ [t]) := by
      simp
    rw [hshape, parse_csi_xterm_route,
      parse_csi_xterm_eval dcb dcx dcy sep t hsep ht hcb1 hcb2 hR hx1 hx2 hxB
        (by omega) hy1 hy2 hyB (by omega)]

theorem xterm_sgr_decode_witness :
    parse_event [27, 91, 60, 48, 59, 50] false = .incomplete ∧
    parse_event [27, 91, 60, 48, 59, 50, 48, 59, 49, 48, 59, 77] false
      = .event (.Input (.Mouse (.Press .Left 19 9))) ∧
    parse_event [27, 91, 60, 51, 59, 53, 59, 54, 77] false
      = .event (.Input (.Mouse (.Release 4 5))) ∧
    parse_event [27, 91, 60, 51, 50, 59, 53, 59, 54, 109] false
      = .event (.Input (.Mouse (.Hold 4 5))) := by
  refine ⟨?_, ?_, ?_, ?_⟩
  · have h := xterm_sgr_decode.1 [48, 59, 50] false (by decide)
    simpa using h
  · have h := xterm_sgr_decode.2 [48] [50, 48] [49, 48] [59] 77 false (by decide)
      (by decide) (by decide) (by decide) (by decide) (by decide) (by decide)
      (by decide) (by decide) (by decide) (by decide) (by decide) (by decide)
    simpa [xtermSpec] using h
  · have h := xterm_sgr_decode.2 [51] [53] [54] [] 77 false (by decide)
      (by decide) (by decide) (by decide) (by decide) (by decide) (by decide)
      (by decide) (by decide) (by decide) (by decide) (by decide) (by decide)
    simpa [xtermSpec] using h
  · have h := xterm_sgr_decode.2 [51, 50] [53] [54] [] 109 false (by decide)
      (by decide) (by decide) (by decide) (by decide) (by decide) (by decide)
      (by decide) (by decide) (by decide) (by decide) (by decide) (by decide)
    simpa [xtermSpec] using h

/-- C6 (amended): For every numbered CSI sequence `ESC [ v ~` whose
single value parses as a `u8` (v ≤ 255), the decoder maps `v` per the
specification's table (`specialKeySpec`); when a second
semicolon-separated value is present and itself parses as a `u8`, the
whole sequence decodes to Unknown.  (As stated the claim fails for a
second value above 255, which the `u8` parse rejects so that the
sequence falls back to the single-value table — see the
counterexample.) -/
theorem special_key_code_decode :
    (∀ (dv : List Nat) (hb : Bool), dv ≠ [] → dv.all isDigitByte = true →
      digitsVal dv < 256 →
      parse_event ([27, 91] ++ dv ++ [126]) hb
        = .event (.Input (specialKeySpec (digitsVal dv)))) ∧
    (∀ (dv dw : List Nat) (hb : Bool), dv ≠ [] → dv.all isDigitByte = true →
      digitsVal dv < 256 → dw ≠ [] → dw.all isDigitByte = true →
      digitsVal dw < 256 →
      parse_event ([27, 91] ++ dv ++ [59] ++ dw ++ [126]) hb
        = .event (.Input .Unknown)) := by
  constructor
  · intro dv hb h1 h2 hB
    obtain ⟨d, dr, rfl⟩ := List.exists_cons_of_ne_nil h1
    have hshape : ([27, 91] : List Nat) ++ (d :: dr) ++ [126]
        = 27 :: 91 :: d :: (dr ++ [126]) := by simp
    rw [hshape, parse_event_to_csi,
      parse_csi_digit_route d dr 126 (digit_head_bounds d dr h2) (by omega) (by omega)]
    norm_num
    have heval := parse_csi_special_single_eval (d :: dr) h1 h2 hB
    simp only [List.cons_append, List.append_assoc] at heval ⊢
    exact heval
  · intro dv dw hb h1 h2 hB h3 h4 hC
    obtain ⟨d, dr, rfl⟩ := List.exists_cons_of_ne_nil h1
    have hshape : ([27, 91] : List Nat) ++ (d :: dr) ++ [59] ++ dw ++ [126]
        = 27 :: 91 :: d :: ((dr ++ 59 :: dw) ++ [126]) := by simp
    rw [hshape, parse_event_to_csi,
      parse_csi_digit_route d (dr ++ 59 :: dw) 126 (digit_head_bounds d dr h2)
        (by omega) (by omega)]
    norm_num
    have heval := parse_csi_special_double_eval (d :: dr) dw h1 h2 hB h3 h4 hC
    simp only [List.cons_append, List.append_assoc] at heval ⊢
    exact heval

theorem special_key_code_decode_witness :
    parse_event [27, 91, 51, 126] false = .event (.Input (.Keyboard .Delete)) ∧
    parse_event [27, 91, 51, 59, 50, 126] false = .event (.Input .Unknown) := by
  constructor
  · have h := special_key_code_decode.1 [51] false (by decide) (by decide) (by decide)
    exact h.trans (by decide)
  · have h := special_key_code_decode.2 [51] [50] false (by decide) (by decide)
      (by decide) (by decide) (by decide) (by decide)
    simpa using h

/-- C6 counterexample: the sequence `ESC [ 3 ; 9 9 9 ~` carries a
second semicolon-separated value (999), yet the decoder returns Delete,
not Unknown: `next_parsed::<u8>` fails on 999, so the code treats the
sequence as single-valued. -/
theorem special_key_second_value_over_u8 :
    parse_event [27, 91, 51, 59, 57, 57, 57, 126] false
      = .event (.Input (.Keyboard .Delete)) ∧
    parse_event [27, 91, 51, 59, 57, 57, 57, 126] false ≠ .event (.Input .Unknown) := by
  constructor
  · decide
  · decide

/-- C1: For the one-byte buffer `[0x1B]`, `parse_event` returns
Incomplete (`Ok(None)`) when the more-input-pending hint is true and the
Esc key event when the hint is false; quantifying over the boolean hint
shows these are the only two outcomes for that buffer. -/
theorem parse_event_lone_esc (h : Bool) :
    parse_event [27] h = if h then .incomplete
      else .event (.Input (.Keyboard .Esc)) := by
  cases h <;> rfl

/-- C9: `parse_event` is deterministic — two invocations on the same
buffer and hint yield identical `DecodeResult` values (the embedding is
a pure function of exactly these two arguments, mirroring that the Rust
function reads no other state). -/
theorem parse_event_deterministic (B : List Nat) (h : Bool) (r1 r2 : ParseResult)
    (h1 : r1 = parse_event B h) (h2 : r2 = parse_event B h) : r1 = r2 :=
  h1.trans h2.symm

theorem parse_event_deterministic_witness :
    ParseResult.event (.Input (.Keyboard .Tab)) = parse_event [9] false :=
  parse_event_deterministic [9] false _ _ (by decide) rfl

/-- C3 (code bug evaluation): for the buffer `ESC 'a'`, whose second
byte is neither `O` nor `[` nor `ESC`, the decoder of src/sys/unix.rs
does NOT return `Alt('a')`: it hands the whole buffer (the leading ESC
included) to `parse_utf8_char`, so it returns `Char('\x1B')` for any
hint, never an `Alt` event; and a partial UTF-8 remainder (`ESC 0xC3`)
yields Invalid rather than Incomplete, because the ESC lead byte makes
`required_bytes = 1`. -/
theorem esc_prefixed_char_not_alt :
    (∀ hb : Bool, parse_event [27, 97] hb
      = .event (.Input (.Keyboard (.Char (Char.ofNat 27))))) ∧
    (∀ (hb : Bool) (c : Char),
      parse_event [27, 97] hb ≠ .event (.Input (.Keyboard (.Alt c)))) ∧
    parse_event [27, 195] false = .invalid := by
  refine ⟨fun hb => by cases hb <;> decide, ?_, by decide⟩
  intro hb c hcontra
  have h1 : parse_event [27, 97] hb
      = .event (.Input (.Keyboard (.Char (Char.ofNat 27)))) := by
    cases hb <;> decide
  rw [h1] at hcontra
  simp at hcontra

/-- C10 (code bug evaluation): `parse_event` is not total — the
minus-1 coordinate conversions underflow `u16` at wire coordinate 0: the
cursor-position report `"\x1B[0;0R"`, the X10 mouse buffer with
coordinate bytes 0x20 (`saturating_sub(32)` yields 0, then `- 1`
underflows), and the rxvt report `"\x1B[35;0;1;M"` all panic in a debug
build (wrap around in release) instead of returning Ok or Err. -/
theorem parse_event_coordinate_underflow :
    parse_event [27, 91, 48, 59, 48, 82] false = .panicked ∧
    parse_event [27, 91, 77, 32, 32, 32] false = .panicked ∧
    parse_event [27, 91, 51, 53, 59, 48, 59, 49, 59, 77] false = .panicked := by
  refine ⟨by decide, by decide, by decide⟩

theorem readUntilOnce_snd_length (d : Nat) (l : List Nat) :
    (readUntilOnce d l).2.length ≤ l.length := by
  induction l with
  | nil => simp [readUntilOnce]
  | cons b rest ih =>
    by_cases hb : b = d
    · simp [readUntilOnce, hb]
    · simp only [readUntilOnce, if_neg hb]
      exact Nat.le_succ_of_le ih

theorem readUntilOnce_append (d : Nat) (l : List Nat) :
    (readUntilOnce d l).1 ++ (readUntilOnce d l).2 = l := by
  induction l with
  | nil => rfl
  | cons b rest ih =>
    by_cases hb : b = d
    · simp [readUntilOnce, hb]
    · simp only [readUntilOnce, if_neg hb, List.cons_append]
      rw [ih]

theorem readUntilLoopAux_all (d : Nat) :
    ∀ (n : Nat) (l : List Nat), l.length ≤ n → readUntilLoopAux n d l = l := by
  intro n
  induction n with
  | zero =>
    intro l hl
    cases l with
    | nil => rfl
    | cons b rest => simp at hl
  | succ n ih =>
    intro l hl
    cases l with
    | nil => rfl
    | cons b rest =>
      show (readUntilOnce d (b :: rest)).1
          ++ readUntilLoopAux n d (readUntilOnce d (b :: rest)).2 = b :: rest
      have hlen : (readUntilOnce d (b :: rest)).2.length ≤ n := by
        have h1 : (readUntilOnce d (b :: rest)).2.length ≤ rest.length := by
          simp only [readUntilOnce]
          by_cases hb : b = d
          · simp [hb]
          · simp only [if_neg hb]
            exact readUntilOnce_snd_length d rest
        simp only [List.length_cons] at hl
        omega
      rw [ih _ hlen, readUntilOnce_append]

theorem readUntilLoop_all (d : Nat) (tty : List Nat) : readUntilLoop d tty = tty :=
  readUntilLoopAux_all d tty.length tty le_rfl

/-- C8 (code bug evaluation): the reading thread spawned by
`read_until_async` delivers EVERY tty byte to the reader's channel —
`readUntilLoop`, the model of `thread::spawn(move || loop { function })`
from `AsyncReader::new`, sends the whole stream for every delimiter,
because the unconditional `loop` re-invokes the closure after it returns
on the delimiter.  In particular with delimiter `'q'` and tty bytes
`"aqb"`, the byte `'b'` that follows the sentinel is still sent (third
conjunct: the closure itself stops at the delimiter, which the wrapping
loop then defeats), so a pull after the sentinel yields another event
rather than end-of-stream. -/
theorem read_until_async_keeps_delivering :
    (∀ (delimiter : Nat) (tty : List Nat), readUntilLoop delimiter tty = tty) ∧
    readUntilLoop 113 [97, 113, 98] = [97, 113, 98] ∧
    readUntilOnce 113 [97, 113, 98] = ([97, 113], [98]) :=
  ⟨readUntilLoop_all, readUntilLoop_all 113 [97, 113, 98], by decide⟩

theorem chanInv_init : ChanInv initChannels := by
  refine ⟨rfl, rfl, ?_⟩
  intro i hi
  simp [initChannels] at hi

theorem chanInv_step (s : Channels) (op : ChanOp) (h : ChanInv s) :
    ChanInv (applyOp s op) := by
  obtain ⟨hlo, hlr, hmain⟩ := h
  cases op with
  | register =>
    refine ⟨by simp [applyOp, hlo], by simp [applyOp, hlr], ?_⟩
    intro i hi
    simp only [applyOp] at hi ⊢
    rcases Nat.lt_or_ge i s.queues.length with hlt | hge
    · rw [List.getD_append _ _ _ _ hlt, List.getD_append _ _ _ _ (hlo ▸ hlt),
        List.getD_append _ _ _ _ (hlr ▸ hlt)]
      exact hmain i hlt
    · have hie : i = s.queues.length := by
        simp only [List.length_append, List.length_cons, List.length_nil] at hi
        omega
      subst hie
      have ho : (s.observed ++ [[]]).getD s.queues.length []
          = ([] : List InternalEvent) := by
        rw [hlo, getD_last_concat]
      have hq : (s.queues ++ [[]]).getD s.queues.length []
          = ([] : List InternalEvent) :=
        getD_last_concat s.queues [] []
      have hr : (s.regAt ++ [s.published.length]).getD s.queues.length 0
          = s.published.length := by
        rw [hlr, getD_last_concat]
      rw [ho, hq, hr]
      exact ⟨by simp, le_rfl⟩
  | send e =>
    refine ⟨by simp [applyOp, hlo], by simp [applyOp, hlr], ?_⟩
    intro i hi
    simp only [applyOp, List.length_map] at hi ⊢
    obtain ⟨hmain_i, hreg_i⟩ := hmain i hi
    constructor
    · rw [getD_map_lt _ _ _ hi]
      calc s.observed.getD i [] ++ (s.queues.getD i [] ++ [e])
          = (s.observed.getD i [] ++ s.queues.getD i []) ++ [e] :=
            (List.append_assoc _ _ _).symm
        _ = s.published.drop (s.regAt.getD i 0) ++ [e] := by rw [hmain_i]
        _ = (s.published ++ [e]).drop (s.regAt.getD i 0) :=
            (List.drop_append_of_le_length hreg_i).symm
    · simp only [List.length_append, List.length_cons, List.length_nil]
      omega
  | drain j =>
    refine ⟨by simp [applyOp, List.length_set, hlo], by simp [applyOp, List.length_set, hlr], ?_⟩
    intro i hi
    simp only [applyOp, List.length_set] at hi ⊢
    obtain ⟨hmain_i, hreg_i⟩ := hmain i hi
    by_cases hji : j = i
    · subst hji
      rw [getD_set_self _ _ _ _ (hlo ▸ hi), getD_set_self _ _ _ _ hi,
        List.append_nil]
      exact ⟨hmain_i, hreg_i⟩
    · rw [getD_set_ne _ _ _ _ _ hji, getD_set_ne _ _ _ _ _ hji]
      exact ⟨hmain_i, hreg_i⟩

theorem chanInv_runOps (ops : List ChanOp) : ChanInv (runOps ops) := by
  suffices h : ∀ s, ChanInv s → ChanInv (ops.foldl applyOp s) from
    h initChannels chanInv_init
  induction ops with
  | nil => intro s hs; exact hs
  | cons op rest ih => intro s hs; exact ih _ (chanInv_step s op hs)

/-- C4: After any serialized sequence of register/publish/drain
operations on the distributor, every consumer's observed prefix followed
by its still-queued events equals exactly the suffix of the publication
history starting at its registration point — so consumers registered
before all publishes observe the published sequence exactly and in
order (second conjunct), and a consumer never receives an event
published before it registered (the dropped prefix). -/
theorem channels_fanout (ops : List ChanOp) (i : Nat)
    (h : i < (runOps ops).queues.length) :
    ((runOps ops).observed.getD i [] ++ (runOps ops).queues.getD i []
      = (runOps ops).published.drop ((runOps ops).regAt.getD i 0)) ∧
    ((runOps ops).regAt.getD i 0 = 0 →
      (runOps ops).observed.getD i [] ++ (runOps ops).queues.getD i []
        = (runOps ops).published) := by
  obtain ⟨hmain, hle⟩ := (chanInv_runOps ops).2.2 i h
  refine ⟨hmain, fun h0 => ?_⟩
  rw [hmain, h0, List.drop_zero]

theorem channels_fanout_witness :
    ((runOps [ChanOp.register, ChanOp.send (.Input .Unknown), ChanOp.drain 0,
        ChanOp.register, ChanOp.send (.Input (.Keyboard .Esc))]).observed.getD 0 []
      ++ (runOps [ChanOp.register, ChanOp.send (.Input .Unknown), ChanOp.drain 0,
        ChanOp.register, ChanOp.send (.Input (.Keyboard .Esc))]).queues.getD 0 []
      = [.Input .Unknown, .Input (.Keyboard .Esc)]) ∧
    ((runOps [ChanOp.register, ChanOp.send (.Input .Unknown), ChanOp.drain 0,
        ChanOp.register, ChanOp.send (.Input (.Keyboard .Esc))]).observed.getD 1 []
      ++ (runOps [ChanOp.register, ChanOp.send (.Input .Unknown), ChanOp.drain 0,
        ChanOp.register, ChanOp.send (.Input (.Keyboard .Esc))]).queues.getD 1 []
      = [.Input (.Keyboard .Esc)]) := by
  constructor
  · have h := (channels_fanout [ChanOp.register, ChanOp.send (.Input .Unknown),
      ChanOp.drain 0, ChanOp.register, ChanOp.send (.Input (.Keyboard .Esc))] 0
      (by decide)).2 (by decide)
    rw [h]
    decide
  · have h := (channels_fanout [ChanOp.register, ChanOp.send (.Input .Unknown),
      ChanOp.drain 0, ChanOp.register, ChanOp.send (.Input (.Keyboard .Esc))] 1
      (by decide)).1
    rw [h]
    decide
